import Mathlib

/-!
Verification of the local conversation store of the Gemini PyQt chat client
(`src/src/gemini.py`, with the earlier revision in `src/gemini.py`).

Python text values are embedded as `List Char` (`Str`).  Wall-clock
timestamps and I/O outcomes are external inputs to the program, so they
appear as explicit parameters: each database method that wraps its body in
`try/except` takes a `fault : Bool` parameter selecting the `except`
branch (the caught-exception behaviour of the source).
-/

/-- Python strings are embedded as lists of characters. -/
abbrev Str := List Char

/-- Lift a Lean string literal to the embedding. -/
def str (s : String) : Str := s.data

/-- The characters removed by Python `str.strip()` (ASCII whitespace). -/
def isPySpace (c : Char) : Bool :=
  c == ' ' || c == '\t' || c == '\n' || c == '\r' || c == '\x0b' || c == '\x0c'

/-- Drop trailing whitespace, the tail half of Python `str.strip()`. -/
def stripEnd (s : Str) : Str := ((s.reverse).dropWhile isPySpace).reverse

/-- Python `str.strip()`: remove leading and trailing whitespace. -/
def pyStrip (s : Str) : Str := stripEnd (s.dropWhile isPySpace)

/-- Python `str.lower()` restricted to the ASCII range, which is the only
range exercised by the program (Korean command words are unaffected by
lowercasing). -/
def pyLower (s : Str) : Str := s.map Char.toLower

/-- Predicate `hasPrefixB n h` : `n` is a literal prefix of `h` (Python `startswith`). -/
def hasPrefixB : Str → Str → Bool
  | [], _ => true
  | _ :: _, [] => false
  | a :: as, b :: bs => a == b && hasPrefixB as bs

/-- Predicate `containsSub n h` : `n` occurs as a contiguous substring of `h`
(Python `n in h`). -/
def containsSub (n : Str) : Str → Bool
  | [] => hasPrefixB n []
  | c :: t => hasPrefixB n (c :: t) || containsSub n t

/-- ASCII-case-insensitive substring containment, the claim-level notion of
"contains the keyword as a case-insensitive substring". -/
def CiSubstring (n h : Str) : Prop :=
  containsSub (pyLower n) (pyLower h) = true

instance (n h : Str) : Decidable (CiSubstring n h) := by
  unfold CiSubstring; infer_instance

theorem hasPrefixB_iff (n h : Str) :
    hasPrefixB n h = true ↔ ∃ t, h = n ++ t := by
  induction n generalizing h with
  | nil => simp [hasPrefixB]
  | cons a as ih =>
    cases h with
    | nil =>
      simp only [hasPrefixB, List.cons_append]
      constructor
      · intro hc; cases hc
      · rintro ⟨t, ht⟩; cases ht
    | cons b bs =>
      simp only [hasPrefixB, Bool.and_eq_true, beq_iff_eq, ih, List.cons_append]
      constructor
      · rintro ⟨rfl, t, rfl⟩; exact ⟨t, rfl⟩
      · rintro ⟨t, ht⟩
        injection ht with h1 h2
        exact ⟨h1.symm, t, h2⟩

theorem containsSub_iff (n h : Str) :
    containsSub n h = true ↔ ∃ s t, h = s ++ n ++ t := by
  induction h with
  | nil =>
    simp only [containsSub, hasPrefixB_iff]
    constructor
    · rintro ⟨t, ht⟩
      exact ⟨[], t, by simpa using ht⟩
    · rintro ⟨s, t, ht⟩
      refine ⟨t, ?_⟩
      rcases List.append_eq_nil.mp (List.append_eq_nil.mp ht.symm).1 with ⟨rfl, rfl⟩
      simpa using ht
  | cons c cs ih =>
    simp only [containsSub, Bool.or_eq_true, hasPrefixB_iff, ih]
    constructor
    · rintro (⟨t, ht⟩ | ⟨s, t, rfl⟩)
      · exact ⟨[], t, by simpa using ht⟩
      · exact ⟨c :: s, t, by simp⟩
    · rintro ⟨s, t, ht⟩
      cases s with
      | nil => exact Or.inl ⟨t, by simpa using ht⟩
      | cons x xs =>
        injection ht with h1 h2
        exact Or.inr ⟨xs, t, by simpa using h2⟩

/-- A literal substring is in particular a case-insensitive substring. -/
theorem CiSubstring_of_sub {n h : Str} (hs : containsSub n h = true) :
    CiSubstring n h := by
  rcases (containsSub_iff n h).mp hs with ⟨s, t, rfl⟩
  unfold CiSubstring pyLower
  exact (containsSub_iff _ _).mpr ⟨s.map Char.toLower, t.map Char.toLower, by simp⟩

/-! ### Fact store (`user_facts` table)

The table `(fact_key TEXT PRIMARY KEY, fact_value TEXT NOT NULL)` is
embedded as a list of key/value pairs kept in rowid (scan) order.
`INSERT OR REPLACE` deletes any row conflicting on the primary key and
inserts the new row with a fresh rowid, i.e. at the end of scan order. -/

abbrev FactsState := List (Str × Str)

/-- Model of `SQLiteChatDatabase.add_or_update_fact`: `INSERT OR REPLACE INTO
user_facts (fact_key, fact_value) VALUES (?, ?)`; returns `True` on
success and `False` from the `except` branch (state untouched). -/
def add_or_update_fact (fault : Bool) (key value : Str) (l : FactsState) :
    Bool × FactsState :=
  if fault then (false, l)
  else (true, (l.filter fun r => r.1 ≠ key) ++ [(key, value)])

/-- Model of `SQLiteChatDatabase.delete_fact`: `DELETE FROM user_facts WHERE
fact_key = ?`, returning `rowcount > 0`. -/
def delete_fact (fault : Bool) (key : Str) (l : FactsState) :
    Bool × FactsState :=
  if fault then (false, l)
  else (decide (0 < l.countP fun r => r.1 = key), l.filter fun r => r.1 ≠ key)

/-- The generic instruction returned when no facts exist (and from the
`except` branch of `get_contextual_facts`). -/
def genericInstr : Str := str "당신은 일반적인 대화형 AI입니다."

/-- Text preceding the joined facts in the contextual instruction. -/
def ctxPre : Str :=
  str "당신은 이 사용자와 대화하고 있습니다. 이 사용자에 대한 다음 사실을 기억하고 대화에 활용해야 합니다: "

/-- Text following the joined facts in the contextual instruction. -/
def ctxPost : Str := str ". 답변은 친절하고 유머러스한 톤으로 하세요."

/-- Python `", ".join(xs)`. -/
def joinComma : List Str → Str
  | [] => []
  | [x] => x
  | x :: y :: rest => x ++ str ", " ++ joinComma (y :: rest)

/-- Model of `SQLiteChatDatabase.get_contextual_facts`: renders all fact rows as
`key: value` joined by `", "` inside a fixed template; returns the generic
instruction when the table is empty or when the read raises. -/
def get_contextual_facts (fault : Bool) (l : FactsState) : Str :=
  if fault then genericInstr
  else if l = [] then genericInstr
  else ctxPre ++ joinComma (l.map fun r => r.1 ++ str ": " ++ r.2) ++ ctxPost

/-- A fact-store mutation as issued by the application, with its fault
flag (whether the underlying write raised). -/
inductive FactOp where
  | add (fault : Bool) (key value : Str)
  | del (fault : Bool) (key : Str)

/-- Apply one fact-store mutation. -/
def applyFactOp (l : FactsState) : FactOp → FactsState
  | .add f k v => (add_or_update_fact f k v l).2
  | .del f k => (delete_fact f k l).2

/-- Apply a sequence of fact-store mutations to the initially empty table. -/
def applyFactOps (ops : List FactOp) : FactsState :=
  ops.foldl applyFactOp []

theorem countP_filter_ne_eq_zero (l : FactsState) (k : Str) :
    (l.filter fun r => r.1 ≠ k).countP (fun r => r.1 = k) = 0 := by
  rw [List.countP_eq_zero]
  intro a ha
  have h2 := (List.mem_filter.mp ha).2
  simp only [decide_eq_true_eq] at h2 ⊢
  exact h2

theorem countP_applyFactOp_le (l : FactsState) (op : FactOp) (k : Str)
    (h : l.countP (fun r => r.1 = k) ≤ 1) :
    (applyFactOp l op).countP (fun r => r.1 = k) ≤ 1 := by
  cases op with
  | add f k' v =>
    cases f with
    | true => simpa [applyFactOp, add_or_update_fact] using h
    | false =>
      have hgoal : (applyFactOp l (.add false k' v)) =
          (l.filter fun r => r.1 ≠ k') ++ [(k', v)] := by
        simp [applyFactOp, add_or_update_fact]
      rw [hgoal, List.countP_append]
      by_cases hk : k = k'
      · subst hk
        have h0 := countP_filter_ne_eq_zero l k
        have h1 : ([(k, v)] : FactsState).countP (fun r => decide (r.1 = k)) = 1 := by
          simp [List.countP_cons]
        omega
      · have hle : (l.filter fun r => r.1 ≠ k').countP (fun r => decide (r.1 = k))
            ≤ l.countP (fun r => decide (r.1 = k)) :=
          (List.filter_sublist l).countP_le _
        have h1 : ([(k', v)] : FactsState).countP (fun r => decide (r.1 = k)) = 0 := by
          simp only [List.countP_cons, List.countP_nil, decide_eq_true_eq]
          simp only [show ¬((k', v).1 = k) from fun hc => hk (hc.symm), if_false]
        omega
  | del f k' =>
    cases f with
    | true => simpa [applyFactOp, delete_fact] using h
    | false =>
      have hgoal : (applyFactOp l (.del false k')) = l.filter fun r => r.1 ≠ k' := by
        simp [applyFactOp, delete_fact]
      rw [hgoal]
      exact le_trans ((List.filter_sublist l).countP_le _) h

/-- C2: the fact store keeps at most one row per key under any operation
sequence, and `add_or_update_fact` is last-write-wins and never fails on
an existing key. -/
theorem fact_store_upsert_lww :
    (∀ ops : List FactOp, ∀ k : Str,
      (applyFactOps ops).countP (fun r => r.1 = k) ≤ 1) ∧
    (∀ (l : FactsState) (k v1 v2 : Str),
      ((add_or_update_fact false k v2
          (add_or_update_fact false k v1 l).2).2.filter fun r => r.1 = k)
        = [(k, v2)]) ∧
    (∀ (l : FactsState) (k v : Str), (add_or_update_fact false k v l).1 = true) := by
  refine ⟨?_, ?_, ?_⟩
  · intro ops k
    suffices h : ∀ (l : FactsState), l.countP (fun r => r.1 = k) ≤ 1 →
        (ops.foldl applyFactOp l).countP (fun r => r.1 = k) ≤ 1 by
      exact h [] (by simp)
    induction ops with
    | nil => intro l h; simpa using h
    | cons op rest ih =>
      intro l h
      exact ih _ (countP_applyFactOp_le l op k h)
  · intro l k v1 v2
    have hstep : ∀ (m : FactsState) (v : Str),
        (add_or_update_fact false k v m).2 = (m.filter fun r => r.1 ≠ k) ++ [(k, v)] := by
      intro m v
      simp [add_or_update_fact]
    have h0 : ∀ m : FactsState,
        ((m.filter fun r => r.1 ≠ k).filter fun r => r.1 = k) = [] := by
      intro m
      rw [List.filter_eq_nil_iff]
      intro a ha
      have h2 := (List.mem_filter.mp ha).2
      simp only [decide_eq_true_eq] at h2 ⊢
      exact h2
    rw [hstep, hstep, List.filter_append, h0]
    simp
  · intro l k v
    simp [add_or_update_fact]

/-- Every member of a comma-join occurs as a substring of the join. -/
theorem sub_joinComma {x : Str} : ∀ {xs : List Str}, x ∈ xs →
    ∃ s t, joinComma xs = s ++ x ++ t := by
  intro xs
  induction xs with
  | nil => intro h; cases h
  | cons y ys ih =>
    intro hmem
    cases ys with
    | nil =>
      rcases List.mem_singleton.mp hmem with rfl
      exact ⟨[], [], by simp [joinComma]⟩
    | cons z zs =>
      rcases List.mem_cons.mp hmem with rfl | hmem'
      · exact ⟨[], str ", " ++ joinComma (z :: zs), by simp [joinComma]⟩
      · rcases ih hmem' with ⟨s, t, hst⟩
        exact ⟨y ++ str ", " ++ s, t, by simp [joinComma, hst]⟩

/-- C4: the contextual instruction is the generic text on an empty store,
and otherwise the fixed template around the comma-joined `key: value`
renderings; every stored fact occurs in it, and after upserting
`hobby=reading` it contains both `"hobby"` and `"reading"`. -/
theorem build_context_instruction_correct :
    (get_contextual_facts false [] = genericInstr) ∧
    (∀ l : FactsState, l ≠ [] →
      get_contextual_facts false l =
        ctxPre ++ joinComma (l.map fun r => r.1 ++ str ": " ++ r.2) ++ ctxPost ∧
      ∀ kv ∈ l, containsSub (kv.1 ++ str ": " ++ kv.2)
        (get_contextual_facts false l) = true) ∧
    (∀ l : FactsState,
      containsSub (str "hobby") (get_contextual_facts false
        (add_or_update_fact false (str "hobby") (str "reading") l).2) = true ∧
      containsSub (str "reading") (get_contextual_facts false
        (add_or_update_fact false (str "hobby") (str "reading") l).2) = true) := by
  have hne : ∀ (l : FactsState) (kv : Str × Str), kv ∈ l →
      containsSub (kv.1 ++ str ": " ++ kv.2) (get_contextual_facts false l) = true := by
    intro l kv hmem
    have hnil : l ≠ [] := by rintro rfl; cases hmem
    rcases sub_joinComma (List.mem_map_of_mem (fun r => r.1 ++ str ": " ++ r.2) hmem)
      with ⟨s, t, hst⟩
    rw [containsSub_iff]
    refine ⟨ctxPre ++ s, t ++ ctxPost, ?_⟩
    have hst' : joinComma (l.map fun r => r.1 ++ str ": " ++ r.2)
        = s ++ (kv.1 ++ str ": " ++ kv.2) ++ t := hst
    have hunf : get_contextual_facts false l
        = ctxPre ++ joinComma (l.map fun r => r.1 ++ str ": " ++ r.2) ++ ctxPost := by
      simp [get_contextual_facts, hnil]
    rw [hunf, hst']
    simp [List.append_assoc]
  refine ⟨by simp [get_contextual_facts], ?_, ?_⟩
  · intro l hl
    exact ⟨by simp [get_contextual_facts, hl], fun kv hkv => hne l kv hkv⟩
  · intro l
    set l' := (add_or_update_fact false (str "hobby") (str "reading") l).2 with hl'
    have hmem : ((str "hobby", str "reading") : Str × Str) ∈ l' := by
      simp [hl', add_or_update_fact]
    have h := hne l' (str "hobby", str "reading") hmem
    rw [containsSub_iff] at h
    rcases h with ⟨s, t, hst⟩
    constructor
    · rw [containsSub_iff]
      exact ⟨s, str ": " ++ str "reading" ++ t, by simpa [str] using hst⟩
    · rw [containsSub_iff]
      exact ⟨s ++ str "hobby" ++ str ": ", t, by simpa [str] using hst⟩

/-- C10: a storage read failure inside `get_contextual_facts` is caught and
yields exactly the generic instruction, indistinguishable from an empty
fact store. -/
theorem context_read_failure_generic :
    ∀ l : FactsState, get_contextual_facts true l = genericInstr ∧
      get_contextual_facts true l = get_contextual_facts false [] := by
  intro l
  exact ⟨by simp [get_contextual_facts], by simp [get_contextual_facts]⟩

/-! ### Ordering on text

SQLite compares `TEXT` values bytewise on their UTF-8 encodings, which on
the code-point lists of the embedding is lexicographic order.  `strLe` is
that order as an executable Boolean. -/

/-- Lexicographic order on text, as SQLite compares `TEXT` columns. -/
def strLe : Str → Str → Bool
  | [], _ => true
  | _ :: _, [] => false
  | a :: as, b :: bs => if a < b then true else if b < a then false else strLe as bs

/-- Strict lexicographic order on text. -/
def strLt (a b : Str) : Bool := strLe a b && !strLe b a

theorem strLe_cons_cons (x y : Char) (as bs : Str) :
    strLe (x :: as) (y :: bs) = true ↔ x < y ∨ (x = y ∧ strLe as bs = true) := by
  simp only [strLe]
  split_ifs with h1 h2
  · simp [h1]
  · simp only [Bool.false_eq_true, false_iff]
    rintro (hlt | ⟨rfl, _⟩)
    · exact absurd hlt (asymm h2)
    · exact absurd h2 (lt_irrefl x)
  · have hxy : x = y := le_antisymm (not_lt.mp h2) (not_lt.mp h1)
    simp [hxy]

theorem strLe_total : ∀ a b : Str, strLe a b = true ∨ strLe b a = true := by
  intro a
  induction a with
  | nil => intro b; exact Or.inl rfl
  | cons x as ih =>
    intro b
    cases b with
    | nil => exact Or.inr rfl
    | cons y bs =>
      rcases lt_trichotomy x y with h | h | h
      · exact Or.inl ((strLe_cons_cons ..).mpr (Or.inl h))
      · rcases ih bs with h' | h'
        · exact Or.inl ((strLe_cons_cons ..).mpr (Or.inr ⟨h, h'⟩))
        · exact Or.inr ((strLe_cons_cons ..).mpr (Or.inr ⟨h.symm, h'⟩))
      · exact Or.inr ((strLe_cons_cons ..).mpr (Or.inl h))

theorem strLe_trans : ∀ a b c : Str, strLe a b = true → strLe b c = true →
    strLe a c = true := by
  intro a
  induction a with
  | nil => intro b c _ _; rfl
  | cons x as ih =>
    intro b c hab hbc
    cases b with
    | nil => cases hab
    | cons y bs =>
      cases c with
      | nil => cases hbc
      | cons z cs =>
        rcases (strLe_cons_cons ..).mp hab with h1 | ⟨rfl, h1⟩ <;>
          rcases (strLe_cons_cons ..).mp hbc with h2 | ⟨rfl, h2⟩
        · exact (strLe_cons_cons ..).mpr (Or.inl (lt_trans h1 h2))
        · exact (strLe_cons_cons ..).mpr (Or.inl h1)
        · exact (strLe_cons_cons ..).mpr (Or.inl h2)
        · exact (strLe_cons_cons ..).mpr (Or.inr ⟨rfl, ih bs cs h1 h2⟩)

theorem strLt_irrefl_le {a b : Str} (h : strLt a b = true) : strLe b a = false := by
  unfold strLt at h
  have h2 := (Bool.and_eq_true _ _ |>.mp h).2
  simpa using h2

/-! ### History store (`chat_history` table)

Rows of `(id INTEGER PRIMARY KEY AUTOINCREMENT, question, answer,
created_at)` are kept in rowid (= insertion) order; `nextId` models the
AUTOINCREMENT sequence, so deleted ids are never reused.  `created_at` is
the wall-clock text timestamp the store assigns at write time; since the
clock is external, it enters as an explicit parameter. -/

structure HistoryRow where
  id : Nat
  question : Str
  answer : Str
  created_at : Str
deriving DecidableEq

structure HistoryState where
  rows : List HistoryRow
  nextId : Nat
deriving DecidableEq

/-- Well-formedness maintained by the store: rowids strictly increase in
insertion order and stay below the AUTOINCREMENT counter. -/
def HWF (st : HistoryState) : Prop :=
  st.rows.Pairwise (fun a b => a.id < b.id) ∧ ∀ r ∈ st.rows, r.id < st.nextId

instance (st : HistoryState) : Decidable (HWF st) := by
  unfold HWF; infer_instance

/-- Model of `SQLiteChatDatabase.save_chat_entry`: `INSERT INTO chat_history
(question, answer, created_at) VALUES (?, ?, ?)`; the `except` branch
swallows any write failure, leaving the table unchanged. -/
def save_chat_entry (fault : Bool) (st : HistoryState) (question answer ts : Str) :
    HistoryState :=
  if fault then st
  else ⟨st.rows ++ [⟨st.nextId, question, answer, ts⟩], st.nextId + 1⟩

/-- The id selected by `SELECT id FROM chat_history ORDER BY id DESC
LIMIT 1`: the maximum rowid, if any. -/
def maxId : List HistoryRow → Option Nat
  | [] => none
  | r :: rs =>
    match maxId rs with
    | none => some r.id
    | some m => some (max r.id m)

/-- Model of `SQLiteChatDatabase.delete_last_entry`: looks up the maximum id,
deletes that row and returns the id; returns `None` on an empty table or
from the `except` branch (which also leaves the table unchanged). -/
def delete_last_entry (fault : Bool) (st : HistoryState) :
    Option Nat × HistoryState :=
  if fault then (none, st)
  else
    match maxId st.rows with
    | none => (none, st)
    | some m => (some m, ⟨st.rows.filter fun r => r.id ≠ m, st.nextId⟩)

theorem maxId_spec : ∀ (l : List HistoryRow) (m : Nat), maxId l = some m →
    (∃ r ∈ l, r.id = m) ∧ ∀ r ∈ l, r.id ≤ m := by
  intro l
  induction l with
  | nil => intro m h; cases h
  | cons r rs ih =>
    intro m h
    unfold maxId at h
    cases hrs : maxId rs with
    | none =>
      rw [hrs] at h
      injection h with h
      subst h
      have hnil : rs = [] := by
        cases rs with
        | nil => rfl
        | cons a as => simp [maxId] at hrs; cases hrs'' : maxId as <;> simp [hrs''] at hrs
      subst hnil
      exact ⟨⟨r, List.mem_singleton_self r, rfl⟩, by simp⟩
    | some m' =>
      rw [hrs] at h
      injection h with h
      rcases ih m' hrs with ⟨⟨r', hr'm, hr'id⟩, hall⟩
      subst h
      constructor
      · rcases Nat.le_total r.id m' with hle | hle
        · exact ⟨r', List.mem_cons_of_mem _ hr'm, by omega⟩
        · exact ⟨r, List.mem_cons_self .., by omega⟩
      · intro a ha
        rcases List.mem_cons.mp ha with rfl | ha'
        · omega
        · have := hall a ha'
          omega

theorem maxId_append_fresh (l : List HistoryRow) (r : HistoryRow)
    (h : ∀ a ∈ l, a.id < r.id) : maxId (l ++ [r]) = some r.id := by
  induction l with
  | nil => simp [maxId]
  | cons a as ih =>
    have has : maxId (as ++ [r]) = some r.id :=
      ih fun b hb => h b (List.mem_cons_of_mem _ hb)
    have hid : a.id < r.id := h a (List.mem_cons_self ..)
    show (match maxId (as ++ [r]) with
      | none => some a.id
      | some m => some (max a.id m)) = some r.id
    rw [has]
    simp [Nat.max_eq_right (Nat.le_of_lt hid)]

/-- C3: `delete_last_entry` on an empty store returns nothing and changes
nothing; immediately after an append it deletes exactly the appended row
and returns its id; in general it returns the maximum id and removes only
that row. -/
theorem delete_last_entry_correct : ∀ st : HistoryState,
    (st.rows = [] → delete_last_entry false st = (none, st)) ∧
    (HWF st → ∀ q a ts, delete_last_entry false (save_chat_entry false st q a ts)
      = (some st.nextId, ({ rows := st.rows, nextId := st.nextId + 1 } : HistoryState))) ∧
    (HWF st → st.rows ≠ [] → ∃ m : Nat,
      (delete_last_entry false st).1 = some m ∧
      (∃ r ∈ st.rows, r.id = m) ∧
      (∀ r ∈ st.rows, r.id ≤ m) ∧
      (delete_last_entry false st).2.rows = (st.rows.filter fun r => r.id ≠ m) ∧
      (∀ r ∈ st.rows, r.id ≠ m → r ∈ (delete_last_entry false st).2.rows) ∧
      (delete_last_entry false st).2.nextId = st.nextId) := by
  intro st
  refine ⟨?_, ?_, ?_⟩
  · intro h
    simp [delete_last_entry, h, maxId]
  · intro hwf q a ts
    have hfresh : ∀ r ∈ st.rows, r.id < st.nextId := hwf.2
    have hmax : maxId (st.rows ++
        [({ id := st.nextId, question := q, answer := a, created_at := ts } : HistoryRow)])
        = some st.nextId :=
      maxId_append_fresh _ _ hfresh
    have hfilter : ((st.rows ++
        [({ id := st.nextId, question := q, answer := a, created_at := ts } : HistoryRow)]).filter
        fun r => r.id ≠ st.nextId) = st.rows := by
      rw [List.filter_append]
      have h1 : (st.rows.filter fun r => r.id ≠ st.nextId) = st.rows := by
        rw [List.filter_eq_self]
        intro r hr
        simpa using Nat.ne_of_lt (hfresh r hr)
      have h2 : (([{ id := st.nextId, question := q, answer := a, created_at := ts }] :
          List HistoryRow).filter fun r => r.id ≠ st.nextId) = [] := by
        simp
      rw [h1, h2, List.append_nil]
    simp only [delete_last_entry, save_chat_entry, if_false, Bool.false_eq_true,
      ite_false, hmax, hfilter]
  · intro hwf hne
    cases hmax : maxId st.rows with
    | none =>
      exfalso
      cases hr : st.rows with
      | nil => exact hne hr
      | cons a as =>
        rw [hr] at hmax
        unfold maxId at hmax
        cases h2 : maxId as <;> simp [h2] at hmax
    | some m =>
      rcases maxId_spec st.rows m hmax with ⟨⟨r, hrm, hrid⟩, hall⟩
      refine ⟨m, ?_, ⟨r, hrm, hrid⟩, hall, ?_, ?_, ?_⟩ <;>
        simp only [delete_last_entry, if_false, Bool.false_eq_true, ite_false, hmax]
      · intro r' hr' hne'
        exact List.mem_filter.mpr ⟨hr', by simpa using hne'⟩

/-! ### Python string helpers used by the command parser -/

/-- Python `s.split(sep, 1)`: `none` when `sep` does not occur (the
one-element result), otherwise the parts before and after the first
occurrence. -/
def pySplitOnce (sep : Char) : Str → Option (Str × Str)
  | [] => none
  | c :: cs =>
    if c = sep then some ([], cs)
    else
      match pySplitOnce sep cs with
      | none => none
      | some (a, b) => some (c :: a, b)

theorem pySplitOnce_eq_none {sep : Char} : ∀ {s : Str}, sep ∉ s →
    pySplitOnce sep s = none := by
  intro s
  induction s with
  | nil => intro _; rfl
  | cons c cs ih =>
    intro h
    have hc : ¬c = sep := fun hc => h (hc ▸ List.mem_cons_self ..)
    have hcs : sep ∉ cs := fun hm => h (List.mem_cons_of_mem _ hm)
    simp only [pySplitOnce, hc, if_false, ih hcs]

theorem dropWhile_append_one (p : Char → Bool) (c : Char) (hc : p c = false) :
    ∀ l : Str, List.dropWhile p (l ++ [c]) =
      if (List.dropWhile p l).isEmpty then [c] else List.dropWhile p l ++ [c] := by
  intro l
  induction l with
  | nil => simp [List.dropWhile, hc]
  | cons a as ih =>
    cases ha : p a with
    | true => simpa [List.dropWhile, ha] using ih
    | false => simp [List.dropWhile, ha]

theorem stripEnd_cons {c : Char} (hc : isPySpace c = false) (l : Str) :
    stripEnd (c :: l) = c :: stripEnd l := by
  unfold stripEnd
  rw [List.reverse_cons, dropWhile_append_one isPySpace c hc]
  cases he : (List.dropWhile isPySpace l.reverse).isEmpty with
  | true =>
    rw [if_pos rfl]
    rw [List.isEmpty_iff] at he
    simp [he]
  | false =>
    rw [if_neg (by simp [he])]
    simp

theorem pyStrip_cons_cons {c d : Char} (hc : isPySpace c = false)
    (hd : isPySpace d = false) (l : Str) :
    pyStrip (c :: d :: l) = c :: d :: stripEnd l := by
  unfold pyStrip
  rw [List.dropWhile_cons_of_neg (by simp [hc]), stripEnd_cons hc, stripEnd_cons hd]

/-! ### Application state and session rebuilding

`AppState` carries the fact table, the cached `self.user_facts`
instruction text, and the system-instruction snapshot the live chat
session was seeded with (`none` when `self.chat is None`).  The presence
of the API key and the possible failure of client construction are the
external inputs `hasKey` and `initFault`. -/

structure AppState where
  facts : FactsState
  user_facts : Str
  session : Option Str
deriving DecidableEq

/-- The synthetic user turn that seeds a new chat session with the
contextual instruction (`GeminiChatApp.init_gemini_client`). -/
def seedInstr (uf : Str) : Str :=
  str "이 대화의 시스템 지침은 다음과 같습니다: " ++ uf

/-- Model of `GeminiChatApp.init_gemini_client`: with no API key it warns and
returns leaving the old client untouched; otherwise it opens a fresh
session seeded from `self.user_facts`, or clears the session if client
construction raises. -/
def init_gemini_client (hasKey initFault : Bool) (st : AppState) : AppState :=
  if ¬hasKey then st
  else if initFault then { st with session := none }
  else { st with session := some (seedInstr st.user_facts) }

/-- Model of `GeminiChatApp.reset_chat_session`: re-reads the fact store into
`self.user_facts` and re-initializes the client/session from it. -/
def reset_chat_session (hasKey initFault ctxFault : Bool) (st : AppState) : AppState :=
  init_gemini_client hasKey initFault
    { st with user_facts := get_contextual_facts ctxFault st.facts }

/-- Result category of one `handle_fact_management` call. -/
inductive FactOutcome where
  | viewed | addOk | addFailed | invalidFormat
  | deleteOk | deleteNotFound | resetDone | help
deriving DecidableEq

/-- The command words that (with the empty command) show the fact list. -/
def viewWords : List Str := [str "보기", str "확인", str "list"]

/-- The `추가` (add) sub-command: `key, value = parts[1].split('=', 1)`
raises `ValueError` when there is no `=` (the malformed-format message);
otherwise upsert the stripped key/value and reset the session on success. -/
def fmAdd (hasKey initFault ctxFault dbFault : Bool) (st : AppState) :
    Option (Str × Str) → AppState × FactOutcome
  | none => (st, .invalidFormat)
  | some (k, v) =>
    if (add_or_update_fact dbFault (pyStrip k) (pyStrip v) st.facts).1 then
      (reset_chat_session hasKey initFault ctxFault
        { st with facts := (add_or_update_fact dbFault (pyStrip k) (pyStrip v) st.facts).2 },
       .addOk)
    else
      ({ st with facts := (add_or_update_fact dbFault (pyStrip k) (pyStrip v) st.facts).2 },
       .addFailed)

/-- Sub-dispatch of `handle_fact_management` on `command.split(' ', 1)`. -/
def fmCommand (hasKey initFault ctxFault dbFault : Bool) (st : AppState)
    (command : Str) : Option (Str × Str) → AppState × FactOutcome
  | none =>
    if pyLower command = str "재설정" then
      (reset_chat_session hasKey initFault ctxFault st, .resetDone)
    else (st, .help)
  | some (w, rest) =>
    if pyLower w = str "추가" then
      fmAdd hasKey initFault ctxFault dbFault st (pySplitOnce '=' rest)
    else if pyLower w = str "삭제" then
      if (delete_fact dbFault (pyStrip rest) st.facts).1 then
        (reset_chat_session hasKey initFault ctxFault
          { st with facts := (delete_fact dbFault (pyStrip rest) st.facts).2 },
         .deleteOk)
      else
        ({ st with facts := (delete_fact dbFault (pyStrip rest) st.facts).2 },
         .deleteNotFound)
    else (st, .help)

/-- Model of `GeminiChatApp.handle_fact_management`: empty input or a view word
shows the facts; otherwise sub-dispatch on the first word. -/
def handle_fact_management (hasKey initFault ctxFault dbFault : Bool)
    (st : AppState) (command : Str) : AppState × FactOutcome :=
  if command = [] ∨ pyLower (pyStrip command) ∈ viewWords then (st, .viewed)
  else fmCommand hasKey initFault ctxFault dbFault st command (pySplitOnce ' ' command)

theorem reset_chat_session_ok (st : AppState) :
    reset_chat_session true false false st =
      { st with user_facts := get_contextual_facts false st.facts,
                session := some (seedInstr (get_contextual_facts false st.facts)) } := by
  simp [reset_chat_session, init_gemini_client]

/-- The command `추가 <text>` never strips or lowercases into a view word. -/
theorem add_command_not_view (text : Str) :
    pyLower (pyStrip (str "추가 " ++ text)) ∉ viewWords := by
  have hcmd : str "추가 " ++ text = '추' :: '가' :: (' ' :: text) := rfl
  rw [hcmd, pyStrip_cons_cons (by decide) (by decide)]
  intro hmem
  simp only [pyLower, List.map_cons, viewWords, List.mem_cons, List.mem_singleton,
    List.not_mem_nil] at hmem
  rcases hmem with h | h | h | h
  · have hh := congrArg (fun l => l.head?) h
    simp [str] at hh
  · have hh := congrArg (fun l => l.head?) h
    simp [str] at hh
  · have hh := congrArg (fun l => l.head?) h
    simp [str] at hh
  · exact h

/-- C8: an `add` command whose argument has no `=` separator yields the
malformed-format outcome and leaves the fact store, cached instruction and
session untouched; no upsert happens and no rebuild is triggered. -/
theorem add_without_equals_invalid (hasKey initFault ctxFault dbFault : Bool)
    (st : AppState) (text : Str) (hne : '=' ∉ text) :
    handle_fact_management hasKey initFault ctxFault dbFault st (str "추가 " ++ text)
      = (st, .invalidFormat) := by
  have hguard : ¬((str "추가 " ++ text) = [] ∨
      pyLower (pyStrip (str "추가 " ++ text)) ∈ viewWords) := by
    rintro (hnil | hview)
    · cases hnil
    · exact add_command_not_view text hview
  have hsplit : pySplitOnce ' ' (str "추가 " ++ text) = some (['추', '가'], text) := rfl
  unfold handle_fact_management
  rw [if_neg hguard, hsplit]
  show fmAdd hasKey initFault ctxFault dbFault st (pySplitOnce '=' text)
    = (st, .invalidFormat)
  rw [pySplitOnce_eq_none hne]
  rfl

/-- C8 witness: the spec scenario `추가 hobby`. -/
theorem add_without_equals_invalid_witness :
    handle_fact_management true false false false
        ⟨[], genericInstr, none⟩ (str "추가 " ++ str "hobby")
      = (⟨[], genericInstr, none⟩, .invalidFormat) :=
  add_without_equals_invalid true false false false ⟨[], genericInstr, none⟩
    (str "hobby") (by decide)

theorem containsSub_append_right {a b h : Str}
    (hc : containsSub (a ++ b) h = true) : containsSub b h = true := by
  rcases (containsSub_iff _ _).mp hc with ⟨s, t, rfl⟩
  exact (containsSub_iff _ _).mpr ⟨s ++ a, t, by simp⟩

theorem containsSub_append_left {a b h : Str}
    (hc : containsSub (a ++ b) h = true) : containsSub a h = true := by
  rcases (containsSub_iff _ _).mp hc with ⟨s, t, rfl⟩
  exact (containsSub_iff _ _).mpr ⟨s, b ++ t, by simp⟩

/-- Every stored fact's `key: value` rendering occurs in the contextual
instruction built from a store that contains it. -/
theorem fact_sub_context {l : FactsState} {kv : Str × Str} (hmem : kv ∈ l) :
    containsSub (kv.1 ++ str ": " ++ kv.2) (get_contextual_facts false l) = true := by
  have hnil : l ≠ [] := by rintro rfl; cases hmem
  rcases sub_joinComma (List.mem_map_of_mem (fun r => r.1 ++ str ": " ++ r.2) hmem)
    with ⟨s, t, hst⟩
  have hst' : joinComma (l.map fun r => r.1 ++ str ": " ++ r.2)
      = s ++ (kv.1 ++ str ": " ++ kv.2) ++ t := hst
  have hunf : get_contextual_facts false l
      = ctxPre ++ joinComma (l.map fun r => r.1 ++ str ": " ++ r.2) ++ ctxPost := by
    simp [get_contextual_facts, hnil]
  rw [containsSub_iff]
  refine ⟨ctxPre ++ s, t ++ ctxPost, ?_⟩
  rw [hunf, hst']
  simp [List.append_assoc]

theorem reset_result_props (m : AppState) :
    (reset_chat_session true false false m).facts = m.facts ∧
    (reset_chat_session true false false m).user_facts
      = get_contextual_facts false (reset_chat_session true false false m).facts ∧
    (reset_chat_session true false false m).session
      = some (seedInstr (get_contextual_facts false
          (reset_chat_session true false false m).facts)) := by
  rw [reset_chat_session_ok]
  exact ⟨rfl, rfl, rfl⟩

theorem handle_fact_management_rebuild (dbFault : Bool) (st st' : AppState)
    (cmd : Str) (oc : FactOutcome)
    (h : handle_fact_management true false false dbFault st cmd = (st', oc))
    (hoc : oc = .addOk ∨ oc = .deleteOk) :
    st'.user_facts = get_contextual_facts false st'.facts ∧
    st'.session = some (seedInstr (get_contextual_facts false st'.facts)) := by
  unfold handle_fact_management at h
  split at h
  · rw [Prod.mk.injEq] at h
    rcases h with ⟨h1, h2⟩
    subst h2
    rcases hoc with hk | hk <;> exact FactOutcome.noConfusion hk
  · unfold fmCommand at h
    split at h
    · split at h <;>
        (rw [Prod.mk.injEq] at h
         rcases h with ⟨h1, h2⟩
         subst h2
         rcases hoc with hk | hk <;> exact FactOutcome.noConfusion hk)
    · rename_i w rest
      split at h
      · unfold fmAdd at h
        split at h
        · rw [Prod.mk.injEq] at h
          rcases h with ⟨h1, h2⟩
          subst h2
          rcases hoc with hk | hk <;> exact FactOutcome.noConfusion hk
        · split at h
          · rw [Prod.mk.injEq] at h
            rcases h with ⟨h1, h2⟩
            rw [← h1]
            exact ⟨(reset_result_props _).2.1, (reset_result_props _).2.2⟩
          · rw [Prod.mk.injEq] at h
            rcases h with ⟨h1, h2⟩
            subst h2
            rcases hoc with hk | hk <;> exact FactOutcome.noConfusion hk
      · split at h
        · split at h
          · rw [Prod.mk.injEq] at h
            rcases h with ⟨h1, h2⟩
            rw [← h1]
            exact ⟨(reset_result_props _).2.1, (reset_result_props _).2.2⟩
          · rw [Prod.mk.injEq] at h
            rcases h with ⟨h1, h2⟩
            subst h2
            rcases hoc with hk | hk <;> exact FactOutcome.noConfusion hk
        · rw [Prod.mk.injEq] at h
          rcases h with ⟨h1, h2⟩
          subst h2
          rcases hoc with hk | hk <;> exact FactOutcome.noConfusion hk

/-- C5: every successful fact mutation (`addOk` or `deleteOk` outcome)
leaves the application with `user_facts` re-read from the post-mutation
fact store and the session handle replaced by one seeded from that fresh
instruction; in particular `추가 name=Kim` succeeds, stores the fact, and
the rebuilt snapshot contains `"Kim"`.  (Turns taken before the handler
runs still read the untouched input state, so a pre-mutation session is
seeded only from pre-mutation facts.) -/
theorem fact_mutation_rebuilds_session :
    (∀ (dbFault : Bool) (st st' : AppState) (cmd : Str) (oc : FactOutcome),
      handle_fact_management true false false dbFault st cmd = (st', oc) →
      oc = .addOk ∨ oc = .deleteOk →
      st'.user_facts = get_contextual_facts false st'.facts ∧
      st'.session = some (seedInstr (get_contextual_facts false st'.facts))) ∧
    (∀ st : AppState,
      (handle_fact_management true false false false st (str "추가 name=Kim")).2
        = .addOk ∧
      (handle_fact_management true false false false st (str "추가 name=Kim")).1.facts
        = (add_or_update_fact false (str "name") (str "Kim") st.facts).2 ∧
      containsSub (str "Kim")
        (handle_fact_management true false false false st
          (str "추가 name=Kim")).1.user_facts = true) := by
  constructor
  · exact handle_fact_management_rebuild
  · intro st
    have heq : handle_fact_management true false false false st (str "추가 name=Kim")
        = (reset_chat_session true false false
            { st with facts :=
              (add_or_update_fact false (str "name") (str "Kim") st.facts).2 },
           .addOk) := rfl
    rw [heq]
    have hp := reset_result_props
      { st with facts := (add_or_update_fact false (str "name") (str "Kim") st.facts).2 }
    refine ⟨rfl, hp.1, ?_⟩
    rw [hp.2.1, hp.1]
    have hmem : ((str "name", str "Kim") : Str × Str)
        ∈ (add_or_update_fact false (str "name") (str "Kim") st.facts).2 := by
      simp [add_or_update_fact]
    have hc := fact_sub_context hmem
    exact containsSub_append_right hc

/-- C5 witness: the rebuild properties instantiated on the empty store. -/
theorem fact_mutation_rebuilds_session_witness :
    (handle_fact_management true false false false ⟨[], genericInstr, none⟩
        (str "추가 name=Kim")).1.user_facts
      = get_contextual_facts false
        (handle_fact_management true false false false ⟨[], genericInstr, none⟩
          (str "추가 name=Kim")).1.facts ∧
    (handle_fact_management true false false false ⟨[], genericInstr, none⟩
        (str "추가 name=Kim")).1.session
      = some (seedInstr (get_contextual_facts false
        (handle_fact_management true false false false ⟨[], genericInstr, none⟩
          (str "추가 name=Kim")).1.facts)) :=
  fact_mutation_rebuilds_session.1 false ⟨[], genericInstr, none⟩
    (handle_fact_management true false false false ⟨[], genericInstr, none⟩
      (str "추가 name=Kim")).1
    (str "추가 name=Kim")
    (handle_fact_management true false false false ⟨[], genericInstr, none⟩
      (str "추가 name=Kim")).2
    rfl (Or.inl (by decide))

/-- C3 witness: delete-after-append on a one-row store removes exactly the
appended row and returns its id. -/
theorem delete_last_entry_correct_witness :
    delete_last_entry false (save_chat_entry false
        ⟨[⟨1, str "q1", str "a1", str "2024-01-01 00:00:01"⟩], 2⟩
        (str "q2") (str "a2") (str "2024-01-01 00:00:02"))
      = (some 2, ⟨[⟨1, str "q1", str "a1", str "2024-01-01 00:00:01"⟩], 3⟩) :=
  (delete_last_entry_correct
      ⟨[⟨1, str "q1", str "a1", str "2024-01-01 00:00:01"⟩], 2⟩).2.1
    (by decide) (str "q2") (str "a2") (str "2024-01-01 00:00:02")

/-- C4 witness: the template equation on the one-fact store `hobby=reading`. -/
theorem build_context_instruction_correct_witness :
    get_contextual_facts false [(str "hobby", str "reading")]
      = ctxPre ++ joinComma ([(str "hobby", str "reading")].map
          fun r => r.1 ++ str ": " ++ r.2) ++ ctxPost :=
  (build_context_instruction_correct.2.1 [(str "hobby", str "reading")] (by decide)).1

/-! ### Chat mode (`send_question`) -/

/-- Outcome of the external generate/send call, an input to the model. -/
inductive ApiResult where
  | ok (text : Str)
  | err
deriving DecidableEq

/-- What one `send_question` call leaves behind: the history store and the
answer text shown in the display (`none` when no answer was shown). -/
structure SendResult where
  history : HistoryState
  displayedAnswer : Option Str
deriving DecidableEq

/-- Model of `GeminiChatApp.send_question` (chat mode): returns silently when there
is no chat session or the question is empty; on API success the stripped
response is persisted via `save_chat_entry` (which swallows write
failures) and then shown; on API failure an error message is shown
instead and nothing is persisted. -/
def send_question (hasChat : Bool) (api : ApiResult) (saveFault : Bool)
    (st : HistoryState) (question ts : Str) : SendResult :=
  if hasChat = false ∨ question = [] then ⟨st, none⟩
  else
    match api with
    | .ok text =>
      ⟨save_chat_entry saveFault st question (pyStrip text) ts, some (pyStrip text)⟩
    | .err => ⟨st, none⟩

/-- C9: when the API call succeeds the answer is displayed whether or not
the history write fails; a failing write only loses the row, never the
displayed answer. -/
theorem answer_shown_despite_save_failure (st : HistoryState)
    (question ts text : Str) (saveFault : Bool) (hq : question ≠ []) :
    (send_question true (.ok text) saveFault st question ts).displayedAnswer
        = some (pyStrip text) ∧
    (send_question true (.ok text) true st question ts).displayedAnswer
        = (send_question true (.ok text) false st question ts).displayedAnswer ∧
    (send_question true (.ok text) true st question ts).history = st := by
  refine ⟨?_, ?_, ?_⟩ <;> simp [send_question, save_chat_entry, hq]

/-- C9 witness: a concrete exchange whose write fails. -/
theorem answer_shown_despite_save_failure_witness :
    (send_question true (.ok (str "ans")) true ⟨[], 1⟩ (str "hi")
        (str "2024-01-01 00:00:00")).displayedAnswer = some (pyStrip (str "ans")) ∧
    (send_question true (.ok (str "ans")) true ⟨[], 1⟩ (str "hi")
        (str "2024-01-01 00:00:00")).displayedAnswer
      = (send_question true (.ok (str "ans")) false ⟨[], 1⟩ (str "hi")
        (str "2024-01-01 00:00:00")).displayedAnswer ∧
    (send_question true (.ok (str "ans")) true ⟨[], 1⟩ (str "hi")
        (str "2024-01-01 00:00:00")).history = ⟨[], 1⟩ :=
  answer_shown_despite_save_failure ⟨[], 1⟩ (str "hi") (str "2024-01-01 00:00:00")
    (str "ans") true (by decide)

/-! ### The unified dispatcher (`handle_action`) -/

/-- Branch taken by one `handle_action` invocation. -/
inductive Dispatch where
  | noClient | undo | chat | searchMode | summarize | coding | webSearch
  | factMgmt | dataAnalysis | imageAnalysis | agentWorkflow | noMode
deriving DecidableEq

/-- The fixed undo keywords checked as substrings of the stripped input. -/
def undoKeywords : List Str := [str "지워줘", str "삭제", str "취소"]

/-- Model of `GeminiChatApp.handle_action`: bails out with an error message when the
API client is missing; otherwise, when the stripped input is non-empty
and contains an undo keyword, short-circuits to the store's
`delete_last_entry` before any mode dispatch; otherwise dispatches on the
selected mode by prefix match.  Only the branch decision and the
dispatcher-performed delete are recorded here; the mode handlers' own
effects are modelled by their own functions. -/
def handle_action (clientPresent dlFault : Bool) (st : HistoryState)
    (mode rawText : Str) : Dispatch × HistoryState :=
  if clientPresent = false then (.noClient, st)
  else if pyStrip rawText ≠ [] ∧
      (undoKeywords.any fun k => containsSub k (pyStrip rawText)) = true then
    (.undo, (delete_last_entry dlFault st).2)
  else if hasPrefixB (str "대화") mode then (.chat, st)
  else if hasPrefixB (str "검색") mode then (.searchMode, st)
  else if hasPrefixB (str "요약") mode then (.summarize, st)
  else if hasPrefixB (str "코딩") mode then (.coding, st)
  else if hasPrefixB (str "웹 검색") mode then (.webSearch, st)
  else if hasPrefixB (str "기억 관리") mode then (.factMgmt, st)
  else if hasPrefixB (str "데이터 분석") mode then (.dataAnalysis, st)
  else if hasPrefixB (str "이미지 분석") mode then (.imageAnalysis, st)
  else if hasPrefixB (str "에이전트 워크플로우") mode then (.agentWorkflow, st)
  else (.noMode, st)

/-- C6 counterexample: with the API client uninitialized, an input that is
non-empty and contains the undo keyword `삭제` does not reach the undo
branch and the history store is untouched — the claimed unconditional
short-circuit fails. -/
theorem undo_override_counterexample :
    pyStrip (str "삭제") ≠ [] ∧
    (∃ k ∈ undoKeywords, containsSub k (pyStrip (str "삭제")) = true) ∧
    (handle_action false false
        ⟨[⟨1, str "q", str "a", str "2024-01-01 00:00:00"⟩], 2⟩
        (str "대화") (str "삭제")).1 = .noClient ∧
    (handle_action false false
        ⟨[⟨1, str "q", str "a", str "2024-01-01 00:00:00"⟩], 2⟩
        (str "대화") (str "삭제")).1 ≠ .undo ∧
    (handle_action false false
        ⟨[⟨1, str "q", str "a", str "2024-01-01 00:00:00"⟩], 2⟩
        (str "대화") (str "삭제")).2
      = ⟨[⟨1, str "q", str "a", str "2024-01-01 00:00:00"⟩], 2⟩ := by
  decide

/-- C6 (amended): provided the API client is initialized, any stripped
non-empty input containing an undo keyword makes the dispatcher call the
history store's `delete_last_entry` and return, regardless of the
selected mode and before any mode handler. -/
theorem undo_override_short_circuit (dlFault : Bool) (st : HistoryState)
    (mode raw : Str) (h1 : pyStrip raw ≠ [])
    (h2 : ∃ k ∈ undoKeywords, containsSub k (pyStrip raw) = true) :
    handle_action true dlFault st mode raw
      = (.undo, (delete_last_entry dlFault st).2) := by
  have hany : (undoKeywords.any fun k => containsSub k (pyStrip raw)) = true := by
    rcases h2 with ⟨k, hk, hc⟩
    exact List.any_eq_true.mpr ⟨k, hk, hc⟩
  unfold handle_action
  rw [if_neg (by simp), if_pos ⟨h1, hany⟩]

/-- C6 witness: the undo override on a concrete store in search mode. -/
theorem undo_override_short_circuit_witness :
    handle_action true false
        ⟨[⟨1, str "q", str "a", str "2024-01-01 00:00:00"⟩], 2⟩
        (str "검색") (str "이거 취소")
      = (.undo, (delete_last_entry false
          ⟨[⟨1, str "q", str "a", str "2024-01-01 00:00:00"⟩], 2⟩).2) :=
  undo_override_short_circuit false
    ⟨[⟨1, str "q", str "a", str "2024-01-01 00:00:00"⟩], 2⟩
    (str "검색") (str "이거 취소") (by decide) (by decide)

/-! ### SQLite `LIKE` and keyword search

`search_history_by_keyword` runs `WHERE question LIKE ? OR answer LIKE ?`
with the pattern `'%' + keyword + '%'`.  SQLite's default `LIKE` treats
`%` as any sequence, `_` as any single character, and compares the
remaining characters ASCII-case-insensitively. -/

/-- Helper `likeStar f t` : some suffix of `t` satisfies `f` — the search a `%`
wildcard performs. -/
def likeStar (f : Str → Bool) : Str → Bool
  | [] => f []
  | c :: ts => f (c :: ts) || likeStar f ts

/-- SQLite `LIKE` matching of a whole text against a pattern. -/
def likeMatch : Str → Str → Bool
  | [], t => t.isEmpty
  | p :: ps, t =>
    if p = '%' then likeStar (likeMatch ps) t
    else
      match t with
      | [] => false
      | c :: ts => (if p = '_' then true else p.toLower == c.toLower) && likeMatch ps ts

theorem likeMatch_pct_nil (ps : Str) : likeMatch ('%' :: ps) [] = likeMatch ps [] := by
  simp [likeMatch, likeStar]

theorem likeMatch_pct_cons (ps : Str) (c : Char) (ts : Str) :
    likeMatch ('%' :: ps) (c :: ts)
      = (likeMatch ps (c :: ts) || likeMatch ('%' :: ps) ts) := by
  simp [likeMatch, likeStar]

theorem likeMatch_lit_nil (p : Char) (ps : Str) (hp : p ≠ '%') :
    likeMatch (p :: ps) [] = false := by
  simp [likeMatch, hp]

theorem likeMatch_lit_cons (p : Char) (ps : Str) (c : Char) (ts : Str)
    (hp : p ≠ '%') (hu : p ≠ '_') :
    likeMatch (p :: ps) (c :: ts) = ((p.toLower == c.toLower) && likeMatch ps ts) := by
  simp [likeMatch, hp, hu]

theorem likeMatch_pct_all : ∀ t : Str, likeMatch ['%'] t = true := by
  intro t
  induction t with
  | nil =>
    rw [likeMatch_pct_nil]
    simp [likeMatch]
  | cons c ts ih =>
    rw [likeMatch_pct_cons]
    simp [ih]

theorem likeMatch_lit_pct : ∀ p : Str, '%' ∉ p → '_' ∉ p → ∀ t : Str,
    (likeMatch (p ++ ['%']) t = true ↔
      ∃ t1 t2, t = t1 ++ t2 ∧ pyLower t1 = pyLower p) := by
  intro p
  induction p with
  | nil =>
    intro _ _ t
    constructor
    · intro _
      exact ⟨[], t, rfl, rfl⟩
    · intro _
      exact likeMatch_pct_all t
  | cons a as ih =>
    intro hp hu t
    have hp' : a ≠ '%' := fun hc => hp (hc ▸ List.mem_cons_self ..)
    have hu' : a ≠ '_' := fun hc => hu (hc ▸ List.mem_cons_self ..)
    have hpas : '%' ∉ as := fun hm => hp (List.mem_cons_of_mem _ hm)
    have huas : '_' ∉ as := fun hm => hu (List.mem_cons_of_mem _ hm)
    cases t with
    | nil =>
      rw [List.cons_append, likeMatch_lit_nil _ _ hp']
      constructor
      · intro hc; cases hc
      · rintro ⟨t1, t2, ht, hl⟩
        rcases List.append_eq_nil.mp ht.symm with ⟨rfl, rfl⟩
        simp [pyLower] at hl
    | cons c ts =>
      rw [List.cons_append, likeMatch_lit_cons _ _ _ _ hp' hu',
        Bool.and_eq_true, beq_iff_eq]
      constructor
      · rintro ⟨hac, hrest⟩
        rcases (ih hpas huas ts).mp hrest with ⟨t1, t2, rfl, hl⟩
        refine ⟨c :: t1, t2, rfl, ?_⟩
        simp only [pyLower, List.map_cons] at hl ⊢
        exact List.cons_eq_cons.mpr ⟨hac.symm, hl⟩
      · rintro ⟨t1, t2, ht, hl⟩
        cases t1 with
        | nil => simp [pyLower] at hl
        | cons x t1' =>
          injection ht with h1 h2
          subst h1
          simp only [pyLower, List.map_cons, List.cons_eq_cons] at hl
          exact ⟨hl.1.symm, (ih hpas huas ts).mpr ⟨t1', t2, h2, hl.2⟩⟩

theorem likeMatch_pct_iff (ps : Str) : ∀ t : Str,
    (likeMatch ('%' :: ps) t = true ↔
      ∃ t1 t2, t = t1 ++ t2 ∧ likeMatch ps t2 = true) := by
  intro t
  induction t with
  | nil =>
    rw [likeMatch_pct_nil]
    constructor
    · intro h
      exact ⟨[], [], rfl, h⟩
    · rintro ⟨t1, t2, ht, h⟩
      rcases List.append_eq_nil.mp ht.symm with ⟨rfl, rfl⟩
      exact h
  | cons c ts ih =>
    rw [likeMatch_pct_cons, Bool.or_eq_true, ih]
    constructor
    · rintro (h | ⟨t1, t2, rfl, h⟩)
      · exact ⟨[], c :: ts, rfl, h⟩
      · exact ⟨c :: t1, t2, rfl, h⟩
    · rintro ⟨t1, t2, ht, h⟩
      cases t1 with
      | nil =>
        have ht' : t2 = c :: ts := by simpa using ht.symm
        exact Or.inl (ht' ▸ h)
      | cons x t1' =>
        injection ht with h1 h2
        subst h1
        exact Or.inr ⟨t1', t2, h2, h⟩

theorem map_decomp {f : Char → Char} : ∀ (l L1 L2 : Str), l.map f = L1 ++ L2 →
    ∃ l1 l2, l = l1 ++ l2 ∧ l1.map f = L1 ∧ l2.map f = L2 := by
  intro l
  induction l with
  | nil =>
    intro L1 L2 h
    have h' : L1 ++ L2 = [] := by simpa using h.symm
    rcases List.append_eq_nil.mp h' with ⟨rfl, rfl⟩
    exact ⟨[], [], rfl, rfl, rfl⟩
  | cons a as ih =>
    intro L1 L2 h
    cases L1 with
    | nil =>
      exact ⟨[], a :: as, rfl, rfl, by simpa using h⟩
    | cons x xs =>
      rw [List.map_cons, List.cons_append] at h
      injection h with h1 h2
      rcases ih xs L2 h2 with ⟨l1, l2, rfl, hm1, hm2⟩
      exact ⟨a :: l1, l2, rfl, by simp [hm1, h1], hm2⟩

/-- The pattern `%kw%` built by `search_history_by_keyword`. -/
def likePat (kw : Str) : Str := '%' :: (kw ++ ['%'])

/-- The keyword has no `LIKE` wildcard characters. -/
def wildcardFree (kw : Str) : Prop := '%' ∉ kw ∧ '_' ∉ kw

instance (kw : Str) : Decidable (wildcardFree kw) := by
  unfold wildcardFree; infer_instance

/-- For a wildcard-free keyword, the `LIKE '%kw%'` test is exactly
case-insensitive substring containment. -/
theorem likeMatch_likePat_iff {kw : Str} (hw : wildcardFree kw) (h : Str) :
    likeMatch (likePat kw) h = true ↔ CiSubstring kw h := by
  unfold likePat
  rw [likeMatch_pct_iff]
  unfold CiSubstring
  rw [containsSub_iff]
  constructor
  · rintro ⟨h1, h2, rfl, hm⟩
    rcases (likeMatch_lit_pct kw hw.1 hw.2 h2).mp hm with ⟨m, r, rfl, hl⟩
    refine ⟨pyLower h1, pyLower r, ?_⟩
    simp only [pyLower, List.map_append, List.append_assoc] at hl ⊢
    rw [hl]
  · rintro ⟨s, t, hst⟩
    rcases map_decomp h s (pyLower kw ++ t) (by simpa [List.append_assoc] using hst)
      with ⟨h1, rest, rfl, hm1, hm2⟩
    rcases map_decomp rest (pyLower kw) t hm2 with ⟨m, r, rfl, hmm, hmr⟩
    exact ⟨h1, m ++ r, rfl,
      (likeMatch_lit_pct kw hw.1 hw.2 (m ++ r)).mpr ⟨m, r, rfl, hmm⟩⟩

/-- Descending `created_at` order between rows (`ORDER BY created_at DESC`). -/
def tsGe (a b : HistoryRow) : Prop := strLe b.created_at a.created_at = true

instance : DecidableRel tsGe := fun a b =>
  inferInstanceAs (Decidable (strLe b.created_at a.created_at = true))

instance : IsTotal HistoryRow tsGe :=
  ⟨fun a b => strLe_total b.created_at a.created_at⟩

instance : IsTrans HistoryRow tsGe :=
  ⟨fun _ _ _ hab hbc => strLe_trans _ _ _ hbc hab⟩

/-- The `WHERE` clause of the search query on one row. -/
def rowMatches (kw : Str) (r : HistoryRow) : Bool :=
  likeMatch (likePat kw) r.question || likeMatch (likePat kw) r.answer

/-- Model of `SQLiteChatDatabase.search_history_by_keyword`: `WHERE question LIKE
'%kw%' OR answer LIKE '%kw%' ORDER BY created_at DESC LIMIT 50`; returns
`[]` from the `except` branch.  Rows are scanned in rowid order; on equal
timestamps the sort keeps scan order (a stable sort), fixing the order
SQLite leaves unspecified for ties. -/
def search_history_by_keyword (fault : Bool) (st : HistoryState) (keyword : Str) :
    List HistoryRow :=
  if fault then []
  else ((st.rows.filter (rowMatches keyword)).insertionSort tsGe).take 50

/-- What `GeminiChatApp.search_history` shows for one search. -/
inductive SearchOutcome where
  | emptyPrompt
  | results (rs : List HistoryRow)
  | noResults
deriving DecidableEq

/-- Model of `GeminiChatApp.search_history`: an empty search term produces only the
enter-a-search-term warning, without querying the store; otherwise the
store results (or a no-match message) are displayed. -/
def search_history (fault : Bool) (st : HistoryState) (search_term : Str) :
    SearchOutcome :=
  if search_term = [] then .emptyPrompt
  else
    match search_history_by_keyword fault st search_term with
    | [] => .noResults
    | r :: rs => .results (r :: rs)

theorem head_of_sorted_strict_max {l : List HistoryRow} {x : HistoryRow}
    (hs : l.Pairwise tsGe) (hx : x ∈ l)
    (hmax : ∀ y ∈ l, y ≠ x → strLt y.created_at x.created_at = true) :
    l.head? = some x := by
  cases l with
  | nil => cases hx
  | cons h t =>
    by_cases hhx : h = x
    · rw [hhx]
      rfl
    · exfalso
      have hlt := hmax h (List.mem_cons_self ..) hhx
      have hxt : x ∈ t := by
        rcases List.mem_cons.mp hx with h1 | h1
        · exact absurd h1.symm hhx
        · exact h1
      have hge : tsGe h x := (List.pairwise_cons.mp hs).1 x hxt
      have hf := strLt_irrefl_le hlt
      unfold tsGe at hge
      rw [hge] at hf
      cases hf

theorem head?_take_pos {l : List HistoryRow} (hne : l ≠ []) :
    (l.take 50).head? = l.head? := by
  cases l with
  | nil => exact absurd rfl hne
  | cons h t => rfl

/-- C7 counterexample: at the store level the empty keyword becomes the
pattern `%%`, which matches every row — on a one-row store the result is
that row, not the empty sequence. -/
theorem empty_keyword_counterexample :
    search_history_by_keyword false
        ⟨[⟨1, str "q", str "a", str "2024-01-01 00:00:00"⟩], 2⟩ []
      = [⟨1, str "q", str "a", str "2024-01-01 00:00:00"⟩] ∧
    search_history_by_keyword false
        ⟨[⟨1, str "q", str "a", str "2024-01-01 00:00:00"⟩], 2⟩ [] ≠ [] := by
  decide

/-- C7 (amended): at the store level the empty keyword matches every row
and returns the 50 most recent entries; the empty-input guard lives in the
caller, whose warning is produced without consulting the store. -/
theorem empty_keyword_matches_all :
    (∀ st : HistoryState, search_history_by_keyword false st []
        = ((st.rows.insertionSort tsGe).take 50)) ∧
    (∀ (fault : Bool) (st : HistoryState),
      search_history false st [] = search_history fault st []) ∧
    (∀ (fault : Bool) (st : HistoryState),
      search_history fault st [] = .emptyPrompt) := by
  refine ⟨?_, ?_, ?_⟩
  · intro st
    have hall : st.rows.filter (rowMatches []) = st.rows := by
      rw [List.filter_eq_self]
      intro r _
      have h1 : ∀ t : Str, likeMatch (likePat []) t = true := by
        intro t
        show likeMatch ('%' :: ([] ++ ['%'])) t = true
        rw [likeMatch_pct_iff]
        exact ⟨[], t, rfl, likeMatch_pct_all t⟩
      simp [rowMatches, h1]
    rw [search_history_by_keyword, if_neg (by simp), hall]
  · intro fault st
    simp [search_history]
  · intro fault st
    simp [search_history]

/-- C1 counterexample: `LIKE` wildcards survive into the pattern, so the
non-empty keyword `_` matches a row although `_` is not a case-insensitive
substring of its question or answer. -/
theorem search_wildcard_counterexample :
    (str "_" ≠ ([] : Str)) ∧
    search_history_by_keyword false
        ⟨[⟨1, str "abc", str "xyz", str "2024-01-01 00:00:00"⟩], 2⟩ (str "_")
      = [⟨1, str "abc", str "xyz", str "2024-01-01 00:00:00"⟩] ∧
    ¬ CiSubstring (str "_") (str "abc") ∧
    ¬ CiSubstring (str "_") (str "xyz") := by
  decide

/-- C1 (amended): for every store state and every non-empty keyword free of
the `LIKE` wildcards `%` and `_`, the search returns only rows matching
the keyword case-insensitively in question or answer; it returns all of
them whenever at most 50 match; the result is ordered by `created_at`
descending and capped at 50; and after an append whose store-assigned
timestamp is strictly later than every existing row's, searching any
substring of the appended question returns the new entry first — hence no
earlier than any strictly-older matching entry. -/
theorem search_by_keyword_correct (st : HistoryState) (kw : Str)
    (hw : wildcardFree kw) (_hne : kw ≠ []) :
    (∀ e ∈ search_history_by_keyword false st kw,
        e ∈ st.rows ∧ (CiSubstring kw e.question ∨ CiSubstring kw e.answer)) ∧
    ((st.rows.filter (rowMatches kw)).length ≤ 50 →
      ∀ e ∈ st.rows, (CiSubstring kw e.question ∨ CiSubstring kw e.answer) →
        e ∈ search_history_by_keyword false st kw) ∧
    (search_history_by_keyword false st kw).Pairwise tsGe ∧
    (search_history_by_keyword false st kw).length ≤ 50 ∧
    (∀ q a ts, (∀ r ∈ st.rows, strLt r.created_at ts = true) →
      containsSub kw q = true →
      (search_history_by_keyword false (save_chat_entry false st q a ts) kw).head?
        = some ⟨st.nextId, q, a, ts⟩) := by
  have hmatch : ∀ r : HistoryRow, rowMatches kw r = true ↔
      (CiSubstring kw r.question ∨ CiSubstring kw r.answer) := by
    intro r
    rw [rowMatches, Bool.or_eq_true, likeMatch_likePat_iff hw, likeMatch_likePat_iff hw]
  have hsearch : search_history_by_keyword false st kw
      = ((st.rows.filter (rowMatches kw)).insertionSort tsGe).take 50 := by
    rw [search_history_by_keyword, if_neg (by simp)]
  refine ⟨?_, ?_, ?_, ?_, ?_⟩
  · intro e he
    rw [hsearch] at he
    have h1 : e ∈ (st.rows.filter (rowMatches kw)).insertionSort tsGe :=
      List.mem_of_mem_take he
    have h2 : e ∈ st.rows.filter (rowMatches kw) :=
      (List.perm_insertionSort tsGe _).mem_iff.mp h1
    rcases List.mem_filter.mp h2 with ⟨hm, hp⟩
    exact ⟨hm, (hmatch e).mp hp⟩
  · intro hlen e he hci
    have hmem : e ∈ st.rows.filter (rowMatches kw) :=
      List.mem_filter.mpr ⟨he, (hmatch e).mpr hci⟩
    have hmem2 : e ∈ (st.rows.filter (rowMatches kw)).insertionSort tsGe :=
      (List.perm_insertionSort tsGe _).mem_iff.mpr hmem
    have hlen2 : ((st.rows.filter (rowMatches kw)).insertionSort tsGe).length ≤ 50 := by
      rw [(List.perm_insertionSort tsGe _).length_eq]
      exact hlen
    rw [hsearch, List.take_of_length_le hlen2]
    exact hmem2
  · rw [hsearch]
    exact List.Pairwise.sublist (List.take_sublist _ _) (List.sorted_insertionSort tsGe _)
  · rw [hsearch, List.length_take]
    exact min_le_left _ _
  · intro q a ts hfresh hsub
    set nr : HistoryRow := ⟨st.nextId, q, a, ts⟩ with hnr
    have hsave : (save_chat_entry false st q a ts).rows = st.rows ++ [nr] := by
      simp [save_chat_entry, hnr]
    have hnm : rowMatches kw nr = true := by
      rw [hmatch]
      exact Or.inl (CiSubstring_of_sub hsub)
    have hfilter : ((st.rows ++ [nr]).filter (rowMatches kw))
        = st.rows.filter (rowMatches kw) ++ [nr] := by
      rw [List.filter_append]
      simp [hnm]
    have hnext : (save_chat_entry false st q a ts).nextId = st.nextId + 1 := by
      simp [save_chat_entry]
    have hsearch2 : search_history_by_keyword false (save_chat_entry false st q a ts) kw
        = ((st.rows.filter (rowMatches kw) ++ [nr]).insertionSort tsGe).take 50 := by
      rw [search_history_by_keyword, if_neg (by simp), hsave, hfilter]
    set L := (st.rows.filter (rowMatches kw) ++ [nr]).insertionSort tsGe with hL
    have hmemL : nr ∈ L := by
      rw [hL]
      exact (List.perm_insertionSort tsGe _).mem_iff.mpr
        (List.mem_append_right _ (List.mem_singleton_self nr))
    have hsorted : L.Pairwise tsGe := List.sorted_insertionSort tsGe _
    have hstrict : ∀ y ∈ L, y ≠ nr → strLt y.created_at nr.created_at = true := by
      intro y hy hyne
      have hy2 : y ∈ st.rows.filter (rowMatches kw) ++ [nr] :=
        (List.perm_insertionSort tsGe _).mem_iff.mp hy
      rcases List.mem_append.mp hy2 with h1 | h1
      · exact hfresh y (List.mem_filter.mp h1).1
      · exact absurd (List.mem_singleton.mp h1) hyne
    have hheadL : L.head? = some nr := head_of_sorted_strict_max hsorted hmemL hstrict
    have hLne : L ≠ [] := by
      intro hc
      rw [hc] at hmemL
      cases hmemL
    rw [hsearch2, head?_take_pos hLne]
    exact hheadL

/-- C1 witness: the spec scenario — three entries, searching `cat` finds
the `B about cats` entry. -/
theorem search_by_keyword_correct_witness :
    (⟨2, str "B about cats", str "rb", str "2024-01-01 00:00:02"⟩ : HistoryRow)
      ∈ search_history_by_keyword false
        ⟨[⟨1, str "A", str "ra", str "2024-01-01 00:00:01"⟩,
          ⟨2, str "B about cats", str "rb", str "2024-01-01 00:00:02"⟩,
          ⟨3, str "C", str "rc", str "2024-01-01 00:00:03"⟩], 4⟩ (str "cat") :=
  (search_by_keyword_correct
      ⟨[⟨1, str "A", str "ra", str "2024-01-01 00:00:01"⟩,
        ⟨2, str "B about cats", str "rb", str "2024-01-01 00:00:02"⟩,
        ⟨3, str "C", str "rc", str "2024-01-01 00:00:03"⟩], 4⟩
      (str "cat") (by decide) (by decide)).2.1 (by decide)
    ⟨2, str "B about cats", str "rb", str "2024-01-01 00:00:02"⟩
    (by decide) (Or.inl (by decide))
